import Mathlib

/-!
Verification development for the movement-analysis pipeline of an IMU
firmware (source: `src/analysis.rs`).

Modelling conventions:
* `f32` is modelled as `ℚ` (exact arithmetic).  All claims under study are
  structural (window bookkeeping, branch structure, selection indices); the
  only float-specific computation that matters for them is
  `(len as f32 * 0.75) as usize`, which is exact in `f32` for every window
  length the firmware can hold, and is therefore modelled as the natural
  floor `3 * len / 4`.
* `VecDeque` is modelled as `List`, head = front = oldest element;
  `pop_front` is `List.drop 1`, `push_back x` is `· ++ [x]`.
* The external `atan2` of the `micromath` crate is an uninterpreted
  function parameter `ℚ → ℚ → ℚ` (first argument the `self` receiver `y`,
  second the argument `x`, as in `y.atan2(x)`).
* Code that can panic (`assert!`, slice indexing out of bounds, the
  constructor asserts) is modelled with `Option`: `none` is a panic.
* The scratch sort buffers of `QuantileDenoiser` are cleared and refilled
  from the windows on every call, so they are modelled as local values;
  `sort_by(partial_cmp)` is modelled as `List.insertionSort (· ≤ ·)`
  (an ascending comparison sort; stability is irrelevant here).
-/

namespace ImuAnalysis

/-- `FusionVector` of the `imu_fusion` crate: an (x, y, z) triple of floats. -/
structure FusionVector where
  x : ℚ
  y : ℚ
  z : ℚ
deriving DecidableEq, Repr

/-- Componentwise vector subtraction (operator `-` of `FusionVector`). -/
def FusionVector.sub (a b : FusionVector) : FusionVector :=
  ⟨a.x - b.x, a.y - b.y, a.z - b.z⟩

instance : Sub FusionVector := ⟨FusionVector.sub⟩

/-- The all-zeros vector. -/
def zeroVec : FusionVector := ⟨0, 0, 0⟩

/-- `MovementDirection` enum. -/
inductive MovementDirection where
  | Horizontal
  | Vertical
  | Diagonal
deriving DecidableEq, Repr

/-- `Smoothing` struct: window of raw acceleration vectors. -/
structure Smoothing where
  measurements : List FusionVector
  smoothing_window_size : ℕ
deriving DecidableEq, Repr

/-- `Smoothing::compute_smoothing_vector`: componentwise sums accumulated by
iteration, each divided by the element count. -/
def Smoothing.compute_smoothing_vector (s : Smoothing) : FusionVector :=
  let sums := s.measurements.foldl
    (fun (acc : ℚ × ℚ × ℚ) m => (acc.1 + m.x, acc.2.1 + m.y, acc.2.2 + m.z))
    (0, 0, 0)
  let num_elems : ℚ := (s.measurements.length : ℚ)
  ⟨sums.1 / num_elems, sums.2.1 / num_elems, sums.2.2 / num_elems⟩

/-- `Smoothing::add_measurement`: evict the front if the window is full, push
the sample, and return sample minus the window mean.  Returns the smoothed
vector and the updated state. -/
def Smoothing.add_measurement (s : Smoothing) (linear_acceleration : FusionVector) :
    FusionVector × Smoothing :=
  let ms :=
    if s.measurements.length ≥ s.smoothing_window_size then s.measurements.drop 1
    else s.measurements
  let s' : Smoothing := { s with measurements := ms ++ [linear_acceleration] }
  let sv := s'.compute_smoothing_vector
  (linear_acceleration - sv, s')

/-- `QUANTILE` constant (0.75). -/
def QUANTILE : ℚ := 3 / 4

/-- `QuantileDenoiser` struct (scratch buffers are modelled as locals of
`compute_quantile_detection_accel`, see the header). -/
structure QuantileDenoiser where
  horizontal_measurements : List ℚ
  vertical_measurements : List ℚ
  detection_window_size : ℕ
deriving DecidableEq, Repr

/-- `QuantileDenoiser::new`. -/
def QuantileDenoiser.new (detection_window_size : ℕ) : QuantileDenoiser :=
  ⟨[], [], detection_window_size⟩

/-- Window update of `QuantileDenoiser::add_measurement` (lines 166–172):
the eviction of BOTH windows is guarded by the horizontal length alone. -/
def QuantileDenoiser.pushWindows (q : QuantileDenoiser) (x y : ℚ) : QuantileDenoiser :=
  { q with
    horizontal_measurements :=
      (if q.horizontal_measurements.length ≥ q.detection_window_size then
        q.horizontal_measurements.drop 1
      else q.horizontal_measurements) ++ [x]
    vertical_measurements :=
      (if q.horizontal_measurements.length ≥ q.detection_window_size then
        q.vertical_measurements.drop 1
      else q.vertical_measurements) ++ [y] }

/-- `QuantileDenoiser::compute_quantile_detection_accel`: the two `assert!`s,
the sorted scratch buffers, the index `(len as f32 * QUANTILE) as usize`
(exact: `3 * len / 4`), and the two indexings; `none` models a panic. -/
def QuantileDenoiser.compute_quantile_detection_accel (q : QuantileDenoiser) :
    Option (ℚ × ℚ) :=
  if q.horizontal_measurements.isEmpty then none
  else if ¬ q.vertical_measurements.length = q.horizontal_measurements.length then none
  else
    let hbuf := q.horizontal_measurements.insertionSort (· ≤ ·)
    let vbuf := q.vertical_measurements.insertionSort (· ≤ ·)
    let pos := 3 * hbuf.length / 4
    match hbuf.get? pos, vbuf.get? pos with
    | some a, some b => some (a, b)
    | _, _ => none

/-- `QuantileDenoiser::add_measurement`: update the windows, then compute the
quantile pair.  Returns the pair and the updated state, or `none` on panic. -/
def QuantileDenoiser.add_measurement (q : QuantileDenoiser) (x y : ℚ) :
    Option ((ℚ × ℚ) × QuantileDenoiser) :=
  let q' := q.pushWindows x y
  q'.compute_quantile_detection_accel.map (fun r => (r, q'))

/-- `AverageDenoiser` struct. -/
structure AverageDenoiser where
  horizontal_measurements : List ℚ
  vertical_measurements : List ℚ
  detection_window_size : ℕ
deriving DecidableEq, Repr

/-- `AverageDenoiser::new`. -/
def AverageDenoiser.new (detection_window_size : ℕ) : AverageDenoiser :=
  ⟨[], [], detection_window_size⟩

/-- Window update of `AverageDenoiser::add_measurement` (lines 123–129);
as in the quantile variant, eviction is guarded by the horizontal length. -/
def AverageDenoiser.pushWindows (a : AverageDenoiser) (x y : ℚ) : AverageDenoiser :=
  { a with
    horizontal_measurements :=
      (if a.horizontal_measurements.length ≥ a.detection_window_size then
        a.horizontal_measurements.drop 1
      else a.horizontal_measurements) ++ [x]
    vertical_measurements :=
      (if a.horizontal_measurements.length ≥ a.detection_window_size then
        a.vertical_measurements.drop 1
      else a.vertical_measurements) ++ [y] }

/-- `AverageDenoiser::compute_average_detection_accel`.  NOTE (faithful to
the source, lines 135–138): BOTH divisors are the length of the
`horizontal_measurements` window. -/
def AverageDenoiser.compute_average_detection_accel (a : AverageDenoiser) : ℚ × ℚ :=
  let mean_horizontal :=
    a.horizontal_measurements.sum / (a.horizontal_measurements.length : ℚ)
  let mean_vertical :=
    a.vertical_measurements.sum / (a.horizontal_measurements.length : ℚ)
  (mean_horizontal, mean_vertical)

/-- `AverageDenoiser::add_measurement`. -/
def AverageDenoiser.add_measurement (a : AverageDenoiser) (x y : ℚ) :
    (ℚ × ℚ) × AverageDenoiser :=
  let a' := a.pushWindows x y
  (a'.compute_average_detection_accel, a')

/-- `MovementDetection` struct (the active `Denoiser` alias is
`QuantileDenoiser`). -/
structure MovementDetection where
  movement_computation : QuantileDenoiser
  acceleration_threshold : ℚ
  angle_low_threshold : ℚ
  angle_high_threshold : ℚ
  prev_direction : Option MovementDirection
deriving DecidableEq, Repr

/-- `MovementDetection::below_acceleration_threshold`. -/
def MovementDetection.below_acceleration_threshold
    (md : MovementDetection) (x_accel y_accel : ℚ) : Bool :=
  decide (x_accel < md.acceleration_threshold) &&
    decide (y_accel < md.acceleration_threshold)

/-- `MovementDetection::next_direction`, with the external `atan2` as an
uninterpreted parameter.  The first `next_state` binding (initialised to
`prev_direction`) is kept to mirror the source; it is shadowed on every
path.  Returns the emitted label and the updated state. -/
def MovementDetection.next_direction (atan2 : ℚ → ℚ → ℚ) (md : MovementDetection)
    (x_accel y_accel : ℚ) : Option MovementDirection × MovementDetection :=
  let next_state := md.prev_direction
  let below_thres := md.below_acceleration_threshold x_accel y_accel
  let next_state :=
    if below_thres then (none : Option MovementDirection)
    else
      let angle := atan2 y_accel x_accel
      if md.angle_low_threshold < angle ∧ angle < md.angle_high_threshold then
        some MovementDirection.Diagonal
      else if angle < md.angle_low_threshold then
        some MovementDirection.Horizontal
      else
        some MovementDirection.Vertical
  (next_state, { md with prev_direction := next_state })

/-- `MovementDetection::add_measurement`: denoise, then classify. -/
def MovementDetection.add_measurement (atan2 : ℚ → ℚ → ℚ) (md : MovementDetection)
    (x y : ℚ) : Option (Option MovementDirection × MovementDetection) :=
  match md.movement_computation.add_measurement x y with
  | none => none
  | some ((x', y'), den') =>
    let md1 := { md with movement_computation := den' }
    some (md1.next_direction atan2 x' y')

/-- `Analysis` struct. -/
structure Analysis where
  smoothing : Smoothing
  movement_detection : MovementDetection
deriving DecidableEq, Repr

/-- `Analysis::new`: the three `assert!`s are modelled as an `Option` guard
(`none` models the construction panic). -/
def Analysis.new (smoothing_window_size detection_window_size : ℕ)
    (acceleration_threshold angle_low_threshold angle_high_threshold : ℚ) :
    Option Analysis :=
  if smoothing_window_size > 0 ∧ detection_window_size > 0 ∧
      detection_window_size < smoothing_window_size then
    some
      { smoothing :=
          { measurements := [], smoothing_window_size := smoothing_window_size }
        movement_detection :=
          { movement_computation := QuantileDenoiser.new detection_window_size
            acceleration_threshold := acceleration_threshold
            angle_low_threshold := angle_low_threshold
            angle_high_threshold := angle_high_threshold
            prev_direction := none } }
  else none

/-- `Analysis::add_measurement`: smooth, project to energies, detect. -/
def Analysis.add_measurement (atan2 : ℚ → ℚ → ℚ) (a : Analysis)
    (linear_acceleration : FusionVector) :
    Option (Option MovementDirection × Analysis) :=
  let p := a.smoothing.add_measurement linear_acceleration
  let smoothed := p.1
  let horiz := smoothed.x ^ 2 + smoothed.y ^ 2
  let verti := smoothed.z ^ 2
  match a.movement_detection.add_measurement atan2 horiz verti with
  | none => none
  | some (dir, md') => some (dir, { smoothing := p.2, movement_detection := md' })

/-- Iterated pipeline ticks: the per-tick loop of the firmware driving
`Analysis::add_measurement` once per input vector.  `none` models a panic at
some tick. -/
def Analysis.run (atan2 : ℚ → ℚ → ℚ) (a : Analysis) :
    List FusionVector → Option (List (Option MovementDirection) × Analysis)
  | [] => some ([], a)
  | i :: rest =>
    match a.add_measurement atan2 i with
    | none => none
    | some (d, a') =>
      match a'.run atan2 rest with
      | none => none
      | some (ds, af) => some (d :: ds, af)

/-- Iterated calls to `QuantileDenoiser::add_measurement`. -/
def QuantileDenoiser.run (q : QuantileDenoiser) :
    List (ℚ × ℚ) → Option (List (ℚ × ℚ) × QuantileDenoiser)
  | [] => some ([], q)
  | (x, y) :: rest =>
    match q.add_measurement x y with
    | none => none
    | some (r, q') =>
      match q'.run rest with
      | none => none
      | some (rs, qf) => some (r :: rs, qf)

/-- The generic bounded-window push: evict the oldest element when at (or
above) capacity, then append.  This is the common window-update pattern of
`Smoothing::add_measurement`, `QuantileDenoiser::add_measurement` and
`AverageDenoiser::add_measurement`. -/
def pushBounded {α : Type} (cap : ℕ) (w : List α) (x : α) : List α :=
  (if w.length ≥ cap then w.drop 1 else w) ++ [x]

/-- Componentwise mean of a list of vectors, written with `List.sum` (the
specification's phrasing of the window mean). -/
def vecMean (l : List FusionVector) : FusionVector :=
  ⟨(l.map FusionVector.x).sum / (l.length : ℚ),
   (l.map FusionVector.y).sum / (l.length : ℚ),
   (l.map FusionVector.z).sum / (l.length : ℚ)⟩

/-- Concrete classifier state used for the C1 counterexample: thresholds
`angle_low = 2`, `angle_high = 3`, `acceleration_threshold = 0`. -/
def cexMD : MovementDetection := ⟨QuantileDenoiser.new 5, 0, 2, 3, none⟩

/-- Concrete stand-in for the external `atan2` returning exactly the low
threshold, as in the spec's boundary example (`angle = angle_low`). -/
def cexAtan2 : ℚ → ℚ → ℚ := fun _ _ => 2

/-- Verification invariant for the all-zero-input scenario: every recorded
measurement in the pipeline state is zero, and the denoiser windows have
equal lengths. -/
def allZeroState (a : Analysis) : Prop :=
  (∀ m ∈ a.smoothing.measurements, m = zeroVec) ∧
  (∀ r ∈ a.movement_detection.movement_computation.horizontal_measurements, r = 0) ∧
  (∀ r ∈ a.movement_detection.movement_computation.vertical_measurements, r = 0) ∧
  a.movement_detection.movement_computation.vertical_measurements.length =
    a.movement_detection.movement_computation.horizontal_measurements.length

/-! ### Theorems settling the claims -/

/-- C1 (counterexample): a configuration with `angle_low < angle_high`, an
energy pair above the threshold, and an angle exactly equal to `angle_low`;
the claim says the result must be `Horizontal`, but `next_direction` returns
`Vertical` (the `angle < angle_low` test is strict and the equality case
falls into the final `else`). -/
theorem C1_counterexample :
    cexMD.angle_low_threshold < cexMD.angle_high_threshold ∧
    ¬ ((1 : ℚ) < cexMD.acceleration_threshold ∧ (1 : ℚ) < cexMD.acceleration_threshold) ∧
    cexAtan2 1 1 ≤ cexMD.angle_low_threshold ∧
    (cexMD.next_direction cexAtan2 1 1).1 = some MovementDirection.Vertical ∧
    (cexMD.next_direction cexAtan2 1 1).1 ≠ some MovementDirection.Horizontal := by
  decide

/-- C1 (amended): with `angle_low < angle_high`, `next_direction` returns
`none` when both energies are below the threshold; otherwise, with
`angle = atan2 v h`: `Horizontal` iff `angle < angle_low` (strictly),
`Diagonal` when `angle_low < angle < angle_high`, and `Vertical` when
`angle ≥ angle_high` — and also when `angle = angle_low` exactly. -/
theorem C1_classifier_transition (atan2 : ℚ → ℚ → ℚ) (md : MovementDetection)
    (hth : md.angle_low_threshold < md.angle_high_threshold) (h v : ℚ) :
    ((h < md.acceleration_threshold ∧ v < md.acceleration_threshold) →
      (md.next_direction atan2 h v).1 = none) ∧
    (¬ (h < md.acceleration_threshold ∧ v < md.acceleration_threshold) →
      ((atan2 v h < md.angle_low_threshold →
          (md.next_direction atan2 h v).1 = some MovementDirection.Horizontal) ∧
       (md.angle_low_threshold < atan2 v h ∧ atan2 v h < md.angle_high_threshold →
          (md.next_direction atan2 h v).1 = some MovementDirection.Diagonal) ∧
       ((md.angle_high_threshold ≤ atan2 v h ∨ atan2 v h = md.angle_low_threshold) →
          (md.next_direction atan2 h v).1 = some MovementDirection.Vertical))) := by
  unfold MovementDetection.next_direction MovementDetection.below_acceleration_threshold
  constructor
  · intro hb
    simp [hb.1, hb.2]
  · intro hb
    rw [Classical.not_and_iff_or_not_not] at hb
    refine ⟨fun hH => ?_, fun hD => ?_, fun hV => ?_⟩
    · have : ¬ (md.angle_low_threshold < atan2 v h) := by linarith
      rcases hb with hb | hb <;> simp [hb, this, hH]
    · rcases hb with hb | hb <;> simp [hb, hD.1, hD.2]
    · rcases hV with hV | hV
      · have h1 : ¬ (atan2 v h < md.angle_high_threshold) := by linarith
        have h2 : ¬ (atan2 v h < md.angle_low_threshold) := by linarith
        rcases hb with hb | hb <;> simp [hb, h1, h2]
      · have h1 : ¬ (md.angle_low_threshold < atan2 v h) := by linarith
        have h2 : ¬ (atan2 v h < md.angle_low_threshold) := by linarith
        rcases hb with hb | hb <;> simp [hb, h1, h2]

/-- Witness for C1 (amended) at a concrete input. -/
theorem C1_classifier_transition_witness :
    (cexMD.next_direction cexAtan2 1 1).1 = some MovementDirection.Vertical := by
  exact ((C1_classifier_transition cexAtan2 cexMD (by decide) 1 1).2 (by decide)).2.2
    (Or.inr (by decide))

/-- C4: the stored `prev_direction` has no influence: two classifier states
differing only in `prev_direction` produce the same label and the same new
state on every input. -/
theorem C4_prev_direction_no_influence (atan2 : ℚ → ℚ → ℚ) (md : MovementDetection)
    (p1 p2 : Option MovementDirection) (h v : ℚ) :
    ({ md with prev_direction := p1 } : MovementDetection).next_direction atan2 h v =
    ({ md with prev_direction := p2 } : MovementDetection).next_direction atan2 h v := by
  simp [MovementDetection.next_direction, MovementDetection.below_acceleration_threshold]

/-- C5: `Analysis::new` aborts construction exactly when a window size is
zero or the detection window is not strictly smaller than the smoothing
window; on success the configured sizes are kept verbatim (no clamping). -/
theorem C5_construction_guard (s d : ℕ) (t lo hi : ℚ) :
    (Analysis.new s d t lo hi = none ↔ (s = 0 ∨ d = 0 ∨ s ≤ d)) ∧
    (∀ a, Analysis.new s d t lo hi = some a →
      a.smoothing.smoothing_window_size = s ∧
      a.movement_detection.movement_computation.detection_window_size = d) := by
  unfold Analysis.new
  constructor
  · split_ifs with hc <;> simp <;> omega
  · intro a ha
    split_ifs at ha with hc
    cases ha.symm
    exact ⟨rfl, rfl⟩

/-- Witness for C5: construction succeeds for sizes (10, 9) and fails for
sizes (10, 10). -/
theorem C5_construction_guard_witness :
    Analysis.new 10 9 1 0 1 ≠ none ∧ Analysis.new 10 10 1 0 1 = none := by
  constructor
  · intro hc
    exact absurd ((C5_construction_guard 10 9 1 0 1).1.mp hc) (by decide)
  · exact (C5_construction_guard 10 10 1 0 1).1.mpr (Or.inr (Or.inr (by decide)))


/-- The quantile index `3 * len / 4` lies inside any non-empty window. -/
lemma quantile_pos_lt_length {l : List ℚ} (h : l ≠ []) :
    3 * l.length / 4 < l.length := by
  have : l.length ≠ 0 := fun hc => h (List.length_eq_zero.mp hc)
  omega

/-- Sorting the scratch buffer preserves its length. -/
lemma length_insertionSort_eq (l : List ℚ) :
    (l.insertionSort (· ≤ ·)).length = l.length :=
  (List.perm_insertionSort _ l).length_eq

/-- `get?` at an in-range index returns `getD` of that index. -/
lemma get?_eq_some_getD {l : List ℚ} {n : ℕ} (h : n < l.length) :
    l.get? n = some (l.getD n 0) := by
  simp [List.getD_eq_getElem?_getD, List.getElem?_eq_getElem h, List.get?_eq_getElem?]

/-- On a non-empty window pair of equal lengths,
`compute_quantile_detection_accel` succeeds and returns the entries of the
two sorted buffers at index `3 * current_length / 4`. -/
lemma compute_quantile_eq {q : QuantileDenoiser}
    (hne : q.horizontal_measurements ≠ [])
    (hlen : q.vertical_measurements.length = q.horizontal_measurements.length) :
    q.compute_quantile_detection_accel =
      some ((q.horizontal_measurements.insertionSort (· ≤ ·)).getD
              (3 * q.horizontal_measurements.length / 4) 0,
            (q.vertical_measurements.insertionSort (· ≤ ·)).getD
              (3 * q.horizontal_measurements.length / 4) 0) := by
  have hE : q.horizontal_measurements.isEmpty = false := by
    simpa [List.isEmpty_iff] using hne
  have hlh := length_insertionSort_eq q.horizontal_measurements
  have hlv := length_insertionSort_eq q.vertical_measurements
  have hpos := quantile_pos_lt_length hne
  have hlth : 3 * q.horizontal_measurements.length / 4 <
      (q.horizontal_measurements.insertionSort (· ≤ ·)).length := by omega
  have hltv : 3 * q.horizontal_measurements.length / 4 <
      (q.vertical_measurements.insertionSort (· ≤ ·)).length := by omega
  simp only [QuantileDenoiser.compute_quantile_detection_accel, hE, Bool.false_eq_true,
    if_false, hlen, not_true_eq_false, hlh]
  rw [get?_eq_some_getD hlth, get?_eq_some_getD hltv]

/-- A successful quantile computation returns members of the two windows. -/
lemma compute_quantile_mem {q : QuantileDenoiser} {a b : ℚ}
    (h : q.compute_quantile_detection_accel = some (a, b)) :
    a ∈ q.horizontal_measurements ∧ b ∈ q.vertical_measurements := by
  unfold QuantileDenoiser.compute_quantile_detection_accel at h
  split_ifs at h
  simp only [] at h
  rcases hga : (q.horizontal_measurements.insertionSort (· ≤ ·)).get?
      (3 * (q.horizontal_measurements.insertionSort (· ≤ ·)).length / 4) with _ | av
  · rw [hga] at h
    simp at h
  · rcases hgb : (q.vertical_measurements.insertionSort (· ≤ ·)).get?
        (3 * (q.horizontal_measurements.insertionSort (· ≤ ·)).length / 4) with _ | bv
    · rw [hga, hgb] at h
      simp at h
    · rw [hga, hgb] at h
      simp only [Option.some.injEq, Prod.mk.injEq] at h
      obtain ⟨ha, hb⟩ := h
      subst ha
      subst hb
      constructor
      · exact (List.mem_insertionSort (· ≤ ·)).mp (List.get?_mem hga)
      · exact (List.mem_insertionSort (· ≤ ·)).mp (List.get?_mem hgb)

/-- After a push the two windows of the quantile denoiser keep equal
lengths, and the horizontal window is non-empty. -/
lemma pushWindows_len_eq {q : QuantileDenoiser}
    (hlen : q.vertical_measurements.length = q.horizontal_measurements.length)
    (x y : ℚ) :
    (q.pushWindows x y).vertical_measurements.length =
      (q.pushWindows x y).horizontal_measurements.length ∧
    (q.pushWindows x y).horizontal_measurements ≠ [] := by
  constructor
  · simp only [QuantileDenoiser.pushWindows]
    split_ifs <;> simp [hlen]
  · simp [QuantileDenoiser.pushWindows]

/-- On the equal-lengths invariant, `add_measurement` never panics and its
new state is the pushed window pair. -/
lemma add_measurement_succeeds {q : QuantileDenoiser}
    (hlen : q.vertical_measurements.length = q.horizontal_measurements.length)
    (x y : ℚ) :
    ∃ r, q.add_measurement x y = some (r, q.pushWindows x y) := by
  obtain ⟨hlen', hne⟩ := pushWindows_len_eq hlen x y
  simp only [QuantileDenoiser.add_measurement]
  rw [compute_quantile_eq hne hlen']
  exact ⟨_, rfl⟩

/-- Iterated `add_measurement` on the equal-lengths invariant: the whole run
succeeds, the invariant is preserved, and the final window is non-empty as
soon as at least one measurement was pushed. -/
lemma run_preserves : ∀ (inputs : List (ℚ × ℚ)) (q : QuantileDenoiser),
    q.vertical_measurements.length = q.horizontal_measurements.length →
    ∃ outs qf, q.run inputs = some (outs, qf) ∧
      qf.vertical_measurements.length = qf.horizontal_measurements.length ∧
      (inputs = [] → qf = q) ∧
      (inputs ≠ [] → qf.horizontal_measurements ≠ [])
  | [], q, hlen => ⟨[], q, rfl, hlen, fun _ => rfl, fun h => absurd rfl h⟩
  | (x, y) :: rest, q, hlen => by
    obtain ⟨r, hr⟩ := add_measurement_succeeds hlen x y
    obtain ⟨outs, qf, hrun, hlen', hnil, hne⟩ :=
      run_preserves rest (q.pushWindows x y) (pushWindows_len_eq hlen x y).1
    refine ⟨r :: outs, qf, ?_, hlen', ?_, fun _ => ?_⟩
    · simp only [QuantileDenoiser.run, hr, hrun]
    · intro h
      exact absurd h (List.cons_ne_nil _ _)
    · by_cases h : rest = []
      · subst h
        rw [hnil rfl]
        exact (pushWindows_len_eq hlen x y).2
      · exact hne h


/-- C2: on any non-empty window (also during warm-up), the quantile denoiser
returns, for each stream, the element at zero-based index
`⌊current_length * 0.75⌋` of the ascending sort of that stream's window; the
sorted buffers really are ascending permutations of the windows, and the
index equals `3 * current_length / 4` (so it is 1 after two pushes, never
the capacity-based 3). -/
theorem C2_quantile_uses_current_length (q : QuantileDenoiser)
    (hne : q.horizontal_measurements ≠ [])
    (hlen : q.vertical_measurements.length = q.horizontal_measurements.length) :
    q.compute_quantile_detection_accel =
      some ((q.horizontal_measurements.insertionSort (· ≤ ·)).getD
              (Nat.floor ((q.horizontal_measurements.length : ℚ) * QUANTILE)) 0,
            (q.vertical_measurements.insertionSort (· ≤ ·)).getD
              (Nat.floor ((q.horizontal_measurements.length : ℚ) * QUANTILE)) 0) ∧
    (q.horizontal_measurements.insertionSort (· ≤ ·)).Sorted (· ≤ ·) ∧
    (q.vertical_measurements.insertionSort (· ≤ ·)).Sorted (· ≤ ·) ∧
    (q.horizontal_measurements.insertionSort (· ≤ ·)).Perm q.horizontal_measurements ∧
    (q.vertical_measurements.insertionSort (· ≤ ·)).Perm q.vertical_measurements ∧
    Nat.floor ((q.horizontal_measurements.length : ℚ) * QUANTILE) =
      3 * q.horizontal_measurements.length / 4 := by
  have hfl : Nat.floor ((q.horizontal_measurements.length : ℚ) * QUANTILE) =
      3 * q.horizontal_measurements.length / 4 := by
    have h1 : (q.horizontal_measurements.length : ℚ) * QUANTILE =
        ((3 * q.horizontal_measurements.length : ℕ) : ℚ) / ((4 : ℕ) : ℚ) := by
      unfold QUANTILE
      push_cast
      ring
    rw [h1, Nat.floor_div_nat, Nat.floor_natCast]
  refine ⟨?_, List.sorted_insertionSort _ _, List.sorted_insertionSort _ _,
    List.perm_insertionSort _ _, List.perm_insertionSort _ _, hfl⟩
  rw [hfl]
  exact compute_quantile_eq hne hlen

/-- Witness for C2: a window of current length 2 inside capacity 5 is read
at index `⌊2 * 0.75⌋ = 1` of the sorted buffer (not at the capacity-based
index 3): sorted `[0, 10]` yields `10`, sorted `[1, 5]` yields `5`. -/
theorem C2_quantile_uses_current_length_witness :
    QuantileDenoiser.compute_quantile_detection_accel ⟨[0, 10], [5, 1], 5⟩ =
      some (10, 5) ∧
    Nat.floor (((2 : ℕ) : ℚ) * QUANTILE) = 1 := by
  have h := C2_quantile_uses_current_length ⟨[0, 10], [5, 1], 5⟩ (by decide) (by decide)
  have hfl := h.2.2.2.2.2
  constructor
  · rw [h.1, hfl]
    norm_num [List.insertionSort, List.orderedInsert]
  · simpa using hfl

/-- C3: every value returned by `QuantileDenoiser::add_measurement` is an
element actually present in the corresponding stream's window after the
push — never synthesized or interpolated. -/
theorem C3_quantile_result_in_window (q : QuantileDenoiser) (x y rh rv : ℚ)
    (q' : QuantileDenoiser)
    (h : q.add_measurement x y = some ((rh, rv), q')) :
    rh ∈ q'.horizontal_measurements ∧ rv ∈ q'.vertical_measurements := by
  simp only [QuantileDenoiser.add_measurement] at h
  rcases hc : (q.pushWindows x y).compute_quantile_detection_accel with _ | r
  · rw [hc] at h
    cases h
  · rw [hc] at h
    simp only [Option.map_some', Option.some.injEq, Prod.mk.injEq] at h
    obtain ⟨hr, hq⟩ := h
    subst hq
    have := compute_quantile_mem (q := q.pushWindows x y) (a := rh) (b := rv)
    rw [hr] at hc
    exact this hc

/-- Witness for C3 at a concrete call. -/
theorem C3_quantile_result_in_window_witness :
    (10 : ℚ) ∈ [(0 : ℚ), 10, 7] ∧ (5 : ℚ) ∈ [(5 : ℚ), 1, 2] := by
  have h : QuantileDenoiser.add_measurement ⟨[0, 10], [5, 1], 5⟩ 7 2 =
      some ((10, 5), ⟨[0, 10, 7], [5, 1, 2], 5⟩) := by
    norm_num [QuantileDenoiser.add_measurement, QuantileDenoiser.pushWindows,
      QuantileDenoiser.compute_quantile_detection_accel, List.insertionSort,
      List.orderedInsert]
  exact C3_quantile_result_in_window ⟨[0, 10], [5, 1], 5⟩ 7 2 10 5
    ⟨[0, 10, 7], [5, 1, 2], 5⟩ h

/-- C10: starting from a freshly constructed quantile denoiser, every tick
succeeds (both internal assertions hold and no indexing is out of bounds):
the whole run returns `some`, and after any non-empty prefix of pushes the
two windows have equal non-zero lengths and the quantile index is strictly
below the length of each sorted scratch buffer. -/
theorem C10_quantile_denoiser_safety (n k : ℕ) (inputs : List (ℚ × ℚ))
    (hk1 : 1 ≤ k) (hk2 : k ≤ inputs.length) :
    (∃ outs qf, (QuantileDenoiser.new n).run inputs = some (outs, qf)) ∧
    (∃ outs qk, (QuantileDenoiser.new n).run (inputs.take k) = some (outs, qk) ∧
      qk.vertical_measurements.length = qk.horizontal_measurements.length ∧
      qk.horizontal_measurements ≠ [] ∧
      3 * (qk.horizontal_measurements.insertionSort (· ≤ ·)).length / 4 <
        (qk.horizontal_measurements.insertionSort (· ≤ ·)).length ∧
      3 * (qk.horizontal_measurements.insertionSort (· ≤ ·)).length / 4 <
        (qk.vertical_measurements.insertionSort (· ≤ ·)).length) := by
  constructor
  · obtain ⟨outs, qf, hrun, -⟩ := run_preserves inputs (QuantileDenoiser.new n) rfl
    exact ⟨outs, qf, hrun⟩
  · obtain ⟨outs, qk, hrun, hlen, -, hne⟩ :=
      run_preserves (inputs.take k) (QuantileDenoiser.new n) rfl
    have htk : inputs.take k ≠ [] := by
      intro hc
      have h0 : (inputs.take k).length = 0 := by rw [hc]; rfl
      rw [List.length_take] at h0
      omega
    have hne' := hne htk
    have hlh := length_insertionSort_eq qk.horizontal_measurements
    have hlv := length_insertionSort_eq qk.vertical_measurements
    have hpos := quantile_pos_lt_length hne'
    exact ⟨outs, qk, hrun, hlen, hne', by omega, by omega⟩

/-- Witness for C10 at a concrete two-tick run with prefix length 1. -/
theorem C10_quantile_denoiser_safety_witness :
    (∃ outs qf, (QuantileDenoiser.new 3).run [(1, 2), (3, 4)] = some (outs, qf)) ∧
    (∃ outs qk, (QuantileDenoiser.new 3).run ([((1 : ℚ), (2 : ℚ)), (3, 4)].take 1) =
        some (outs, qk) ∧
      qk.vertical_measurements.length = qk.horizontal_measurements.length ∧
      qk.horizontal_measurements ≠ [] ∧
      3 * (qk.horizontal_measurements.insertionSort (· ≤ ·)).length / 4 <
        (qk.horizontal_measurements.insertionSort (· ≤ ·)).length ∧
      3 * (qk.horizontal_measurements.insertionSort (· ≤ ·)).length / 4 <
        (qk.vertical_measurements.insertionSort (· ≤ ·)).length) :=
  C10_quantile_denoiser_safety 3 1 [(1, 2), (3, 4)] (by decide) (by decide)


/-- A bounded-window push sequence keeps exactly the most recent `cap`
pushes: folding `pushBounded` over `xs` from a window `w` within capacity
yields the last `cap` elements of `w ++ xs`, in order. -/
lemma foldl_pushBounded_drop {α : Type} (cap : ℕ) (hcap : 0 < cap) :
    ∀ (xs : List α) (w : List α), w.length ≤ cap →
      xs.foldl (pushBounded cap) w = (w ++ xs).drop (w.length + xs.length - cap)
  | [], w => by
    intro hw
    simp [Nat.sub_eq_zero_of_le hw]
  | x :: xs, w => by
    intro hw
    rcases Nat.lt_or_ge w.length cap with hlt | hge
    · have hpush : pushBounded cap w x = w ++ [x] := by
        simp only [pushBounded]
        rw [if_neg (by omega)]
      have hlen : (w ++ [x]).length ≤ cap := by
        simp
        omega
      have ih := foldl_pushBounded_drop cap hcap xs (w ++ [x]) hlen
      rw [List.foldl_cons, hpush, ih]
      have harr : (w ++ [x]) ++ xs = w ++ x :: xs := by simp
      rw [harr]
      congr 1
      simp
      omega
    · have heq : w.length = cap := le_antisymm hw hge
      have hwne : w ≠ [] := by
        intro hc
        rw [hc] at heq
        simp at heq
        omega
      have hpush : pushBounded cap w x = w.drop 1 ++ [x] := by
        simp only [pushBounded]
        rw [if_pos (by omega)]
      have hlen : (w.drop 1 ++ [x]).length ≤ cap := by
        simp
        omega
      have ih := foldl_pushBounded_drop cap hcap xs (w.drop 1 ++ [x]) hlen
      rw [List.foldl_cons, hpush, ih]
      have hlen2 : (w.drop 1 ++ [x]).length = cap := by
        simp
        omega
      rw [hlen2]
      have h1 : w.drop 1 ++ [x] ++ xs = (w ++ x :: xs).drop 1 := by
        rw [List.drop_append_of_le_length (by omega)]
        simp
      rw [h1, List.drop_drop]
      congr 1
      simp only [List.length_cons]
      omega


/-- The componentwise fold of `compute_smoothing_vector` accumulates exactly
the three componentwise sums. -/
lemma foldl_sum_triple (l : List FusionVector) (a b c : ℚ) :
    l.foldl (fun (acc : ℚ × ℚ × ℚ) m => (acc.1 + m.x, acc.2.1 + m.y, acc.2.2 + m.z))
        (a, b, c) =
      (a + (l.map FusionVector.x).sum, b + (l.map FusionVector.y).sum,
        c + (l.map FusionVector.z).sum) := by
  induction l generalizing a b c with
  | nil => simp
  | cons m t ih =>
    simp only [List.foldl_cons, ih, List.map_cons, List.sum_cons]
    simp [add_assoc]

/-- The smoothing vector is the componentwise window mean. -/
lemma compute_smoothing_eq_vecMean (s : Smoothing) :
    s.compute_smoothing_vector = vecMean s.measurements := by
  unfold Smoothing.compute_smoothing_vector vecMean
  rw [foldl_sum_triple]
  simp

/-- C7: `Smoothing::add_measurement` pushes the sample (evicting the oldest
element exactly when the window is at capacity), leaves the window
non-empty (so the mean's divisor, the current element count, is never
zero), and returns the sample minus the componentwise mean of the window
including the just-pushed sample. -/
theorem C7_smoothing_filter (s : Smoothing) (la : FusionVector) :
    (s.measurements.length < s.smoothing_window_size →
        (s.add_measurement la).2.measurements = s.measurements ++ [la]) ∧
    (s.measurements.length = s.smoothing_window_size →
        (s.add_measurement la).2.measurements = s.measurements.tail ++ [la]) ∧
    (s.add_measurement la).2.measurements ≠ [] ∧
    (s.add_measurement la).2.measurements.length ≠ 0 ∧
    (s.add_measurement la).1 = la - vecMean (s.add_measurement la).2.measurements := by
  refine ⟨?_, ?_, ?_, ?_, ?_⟩
  · intro h
    simp only [Smoothing.add_measurement]
    rw [if_neg (by omega)]
  · intro h
    simp only [Smoothing.add_measurement]
    rw [if_pos (by omega), List.drop_one]
  · simp [Smoothing.add_measurement]
  · simp [Smoothing.add_measurement]
  · simp only [Smoothing.add_measurement, compute_smoothing_eq_vecMean]

/-- Witness for C7: a window at capacity 1 holding `(1,2,3)` receives
`(4,5,6)`; the old element is evicted and the output is the sample minus
the mean of the one-element window, i.e. the zero vector. -/
theorem C7_smoothing_filter_witness :
    (Smoothing.add_measurement ⟨[⟨1, 2, 3⟩], 1⟩ ⟨4, 5, 6⟩).2.measurements =
      [⟨4, 5, 6⟩] ∧
    (Smoothing.add_measurement ⟨[⟨1, 2, 3⟩], 1⟩ ⟨4, 5, 6⟩).1 = zeroVec := by
  have h := C7_smoothing_filter ⟨[⟨1, 2, 3⟩], 1⟩ ⟨4, 5, 6⟩
  have hw : (Smoothing.add_measurement ⟨[⟨1, 2, 3⟩], 1⟩ ⟨4, 5, 6⟩).2.measurements =
      [⟨4, 5, 6⟩] := by simpa using h.2.1 rfl
  refine ⟨hw, ?_⟩
  rw [h.2.2.2.2, hw]
  show FusionVector.sub _ _ = _
  norm_num [vecMean, FusionVector.sub, zeroVec]

/-- C8: the common bounded-window push of all three pipeline windows: the
length never exceeds the capacity; at full capacity exactly the oldest
element is removed before appending; below capacity nothing is evicted;
the window contents after any push sequence are the most recent
`cap` pushes in insertion order (oldest first); and the window updates of
`Smoothing`, `QuantileDenoiser` and `AverageDenoiser` all are this push
(for the vertical windows under the pipeline's equal-lengths invariant,
since their eviction is guarded by the horizontal length). -/
theorem C8_bounded_window (cap : ℕ) (hcap : 0 < cap) :
    (∀ (α : Type) (w : List α) (x : α), w.length ≤ cap →
        (pushBounded cap w x).length ≤ cap) ∧
    (∀ (α : Type) (w : List α) (x : α), w.length = cap →
        pushBounded cap w x = w.tail ++ [x]) ∧
    (∀ (α : Type) (w : List α) (x : α), w.length < cap →
        pushBounded cap w x = w ++ [x]) ∧
    (∀ (α : Type) (xs : List α),
        xs.foldl (pushBounded cap) [] = xs.drop (xs.length - cap)) ∧
    (∀ (s : Smoothing) (la : FusionVector), s.smoothing_window_size = cap →
        (s.add_measurement la).2.measurements = pushBounded cap s.measurements la) ∧
    (∀ (q : QuantileDenoiser) (x y : ℚ), q.detection_window_size = cap →
        (q.pushWindows x y).horizontal_measurements =
          pushBounded cap q.horizontal_measurements x) ∧
    (∀ (q : QuantileDenoiser) (x y : ℚ), q.detection_window_size = cap →
        q.vertical_measurements.length = q.horizontal_measurements.length →
        (q.pushWindows x y).vertical_measurements =
          pushBounded cap q.vertical_measurements y) ∧
    (∀ (a : AverageDenoiser) (x y : ℚ), a.detection_window_size = cap →
        (a.pushWindows x y).horizontal_measurements =
          pushBounded cap a.horizontal_measurements x) ∧
    (∀ (a : AverageDenoiser) (x y : ℚ), a.detection_window_size = cap →
        a.vertical_measurements.length = a.horizontal_measurements.length →
        (a.pushWindows x y).vertical_measurements =
          pushBounded cap a.vertical_measurements y) := by
  refine ⟨?_, ?_, ?_, ?_, ?_, ?_, ?_, ?_, ?_⟩
  · intro α w x h
    simp only [pushBounded]
    split_ifs with hge <;> simp <;> omega
  · intro α w x h
    simp only [pushBounded]
    rw [if_pos (by omega), List.drop_one]
  · intro α w x h
    simp only [pushBounded]
    rw [if_neg (by omega)]
  · intro α xs
    have := foldl_pushBounded_drop cap hcap xs []
    simpa using this (by simp)
  · intro s la h
    subst h
    simp only [Smoothing.add_measurement, pushBounded]
  · intro q x y h
    subst h
    simp only [QuantileDenoiser.pushWindows, pushBounded]
  · intro q x y h hlen
    subst h
    simp only [QuantileDenoiser.pushWindows, pushBounded, hlen]
  · intro a x y h
    subst h
    simp only [AverageDenoiser.pushWindows, pushBounded]
  · intro a x y h hlen
    subst h
    simp only [AverageDenoiser.pushWindows, pushBounded, hlen]

/-- Witness for C8 at capacity 2: a full window `[1, 2]` pushed with `3`
evicts exactly the oldest element, stays within capacity, and a fold over
three pushes keeps the last two in insertion order. -/
theorem C8_bounded_window_witness :
    pushBounded 2 [(1 : ℚ), 2] 3 = [2, 3] ∧
    (pushBounded 2 [(1 : ℚ), 2] 3).length ≤ 2 ∧
    [(1 : ℚ), 2, 3].foldl (pushBounded 2) [] = [2, 3] := by
  have h := C8_bounded_window 2 (by decide)
  refine ⟨?_, h.1 ℚ [1, 2] 3 (by decide), ?_⟩
  · have := h.2.1 ℚ [(1 : ℚ), 2] 3 (by decide)
    simpa using this
  · have := h.2.2.2.1 ℚ [(1 : ℚ), 2, 3]
    simpa using this


/-- The average denoiser's pushed windows keep equal lengths. -/
lemma avg_pushWindows_len_eq {a : AverageDenoiser}
    (hlen : a.vertical_measurements.length = a.horizontal_measurements.length)
    (x y : ℚ) :
    (a.pushWindows x y).vertical_measurements.length =
      (a.pushWindows x y).horizontal_measurements.length := by
  simp only [AverageDenoiser.pushWindows]
  split_ifs <;> simp [hlen]

/-- C9: on the equal-lengths invariant (which holds from construction and is
preserved by every call), `AverageDenoiser::add_measurement` returns, for
each stream independently, the arithmetic mean of that stream's own window
after the push — the divisor written as the horizontal length in the source
equals each stream's own length — and each stream's result is unchanged if
the other stream's contents are replaced (no cross-stream flow). -/
theorem C9_average_denoiser_means (a : AverageDenoiser)
    (hlen : a.vertical_measurements.length = a.horizontal_measurements.length)
    (x y : ℚ) :
    ((a.add_measurement x y).1 =
      ((a.pushWindows x y).horizontal_measurements.sum /
        (((a.pushWindows x y).horizontal_measurements.length : ℚ)),
       (a.pushWindows x y).vertical_measurements.sum /
        (((a.pushWindows x y).vertical_measurements.length : ℚ)))) ∧
    (a.add_measurement x y).2 = a.pushWindows x y ∧
    (a.pushWindows x y).vertical_measurements.length =
      (a.pushWindows x y).horizontal_measurements.length ∧
    (∀ (b : AverageDenoiser) (w : ℚ),
        b.horizontal_measurements = a.horizontal_measurements →
        b.detection_window_size = a.detection_window_size →
        (b.add_measurement x w).1.1 = (a.add_measurement x y).1.1) ∧
    (∀ (b : AverageDenoiser) (w : ℚ),
        b.vertical_measurements = a.vertical_measurements →
        b.horizontal_measurements.length = a.horizontal_measurements.length →
        b.detection_window_size = a.detection_window_size →
        (b.add_measurement w y).1.2 = (a.add_measurement x y).1.2) := by
  have hlen' := avg_pushWindows_len_eq hlen x y
  refine ⟨?_, rfl, hlen', ?_, ?_⟩
  · simp only [AverageDenoiser.add_measurement,
      AverageDenoiser.compute_average_detection_accel]
    rw [hlen']
  · intro b w hH hC
    simp only [AverageDenoiser.add_measurement, AverageDenoiser.pushWindows,
      AverageDenoiser.compute_average_detection_accel, hH, hC]
  · intro b w hV hL hC
    simp only [AverageDenoiser.add_measurement, AverageDenoiser.pushWindows,
      AverageDenoiser.compute_average_detection_accel, hV, hL, hC]
    split_ifs <;> simp [hL]

/-- Witness for C9: windows `[2]` and `[4]` (capacity 2) pushed with
`(4, 6)` yield the means `(6/2, 10/2) = (3, 5)`. -/
theorem C9_average_denoiser_means_witness :
    (AverageDenoiser.add_measurement ⟨[2], [4], 2⟩ 4 6).1 = (3, 5) := by
  have h := C9_average_denoiser_means ⟨[2], [4], 2⟩ (by decide) 4 6
  rw [h.1]
  norm_num [AverageDenoiser.pushWindows]


/-- The mean of an all-zero vector window is the zero vector (also for the
empty window, where the divisor is 0 and `ℚ` division by 0 is 0 — the
pipeline never reads the empty-window mean, see C7). -/
lemma vecMean_allZero {l : List FusionVector} (h : ∀ m ∈ l, m = zeroVec) :
    vecMean l = zeroVec := by
  have hx : (l.map FusionVector.x).sum = 0 := by
    apply List.sum_eq_zero
    intro r hr
    obtain ⟨m, hm, rfl⟩ := List.mem_map.mp hr
    rw [h m hm]
    rfl
  have hy : (l.map FusionVector.y).sum = 0 := by
    apply List.sum_eq_zero
    intro r hr
    obtain ⟨m, hm, rfl⟩ := List.mem_map.mp hr
    rw [h m hm]
    rfl
  have hz : (l.map FusionVector.z).sum = 0 := by
    apply List.sum_eq_zero
    intro r hr
    obtain ⟨m, hm, rfl⟩ := List.mem_map.mp hr
    rw [h m hm]
    rfl
  simp [vecMean, hx, hy, hz, zeroVec]

/-- Feeding the zero vector to a smoothing stage whose window is all zeros
returns the zero vector and keeps the window all zeros. -/
lemma smoothing_zero_step {s : Smoothing}
    (hz : ∀ m ∈ s.measurements, m = zeroVec) :
    (s.add_measurement zeroVec).1 = zeroVec ∧
    (∀ m ∈ (s.add_measurement zeroVec).2.measurements, m = zeroVec) := by
  have hall : ∀ m ∈ (s.add_measurement zeroVec).2.measurements, m = zeroVec := by
    simp only [Smoothing.add_measurement]
    intro m hm
    rcases List.mem_append.mp hm with hm | hm
    · split_ifs at hm
      · exact hz m (List.mem_of_mem_drop hm)
      · exact hz m hm
    · simpa using hm
  refine ⟨?_, hall⟩
  have h1 : (s.add_measurement zeroVec).1 =
      zeroVec - vecMean (s.add_measurement zeroVec).2.measurements := by
    simp only [Smoothing.add_measurement, compute_smoothing_eq_vecMean]
  rw [h1, vecMean_allZero hall]
  show FusionVector.sub zeroVec zeroVec = zeroVec
  norm_num [FusionVector.sub, zeroVec]

/-- Feeding `(0, 0)` to a quantile denoiser whose windows are all zeros (and
of equal lengths) returns `(0, 0)` and keeps the windows all zeros. -/
lemma quantile_zero_step {q : QuantileDenoiser}
    (hzh : ∀ r ∈ q.horizontal_measurements, r = 0)
    (hzv : ∀ r ∈ q.vertical_measurements, r = 0)
    (hlen : q.vertical_measurements.length = q.horizontal_measurements.length) :
    q.add_measurement 0 0 = some ((0, 0), q.pushWindows 0 0) ∧
    (∀ r ∈ (q.pushWindows 0 0).horizontal_measurements, r = 0) ∧
    (∀ r ∈ (q.pushWindows 0 0).vertical_measurements, r = 0) ∧
    (q.pushWindows 0 0).vertical_measurements.length =
      (q.pushWindows 0 0).horizontal_measurements.length := by
  obtain ⟨hlen', hne⟩ := pushWindows_len_eq hlen 0 0
  have hzh' : ∀ r ∈ (q.pushWindows 0 0).horizontal_measurements, r = 0 := by
    simp only [QuantileDenoiser.pushWindows]
    intro r hr
    rcases List.mem_append.mp hr with hr | hr
    · split_ifs at hr
      · exact hzh r (List.mem_of_mem_drop hr)
      · exact hzh r hr
    · simpa using hr
  have hzv' : ∀ r ∈ (q.pushWindows 0 0).vertical_measurements, r = 0 := by
    simp only [QuantileDenoiser.pushWindows]
    intro r hr
    rcases List.mem_append.mp hr with hr | hr
    · split_ifs at hr
      · exact hzv r (List.mem_of_mem_drop hr)
      · exact hzv r hr
    · simpa using hr
  have hpos := quantile_pos_lt_length hne
  have hlh := length_insertionSort_eq (q.pushWindows 0 0).horizontal_measurements
  have hlv := length_insertionSort_eq (q.pushWindows 0 0).vertical_measurements
  have hlth : 3 * (q.pushWindows 0 0).horizontal_measurements.length / 4 <
      ((q.pushWindows 0 0).horizontal_measurements.insertionSort (· ≤ ·)).length := by
    omega
  have hltv : 3 * (q.pushWindows 0 0).horizontal_measurements.length / 4 <
      ((q.pushWindows 0 0).vertical_measurements.insertionSort (· ≤ ·)).length := by
    omega
  have hh : ((q.pushWindows 0 0).horizontal_measurements.insertionSort (· ≤ ·)).getD
      (3 * (q.pushWindows 0 0).horizontal_measurements.length / 4) 0 = 0 :=
    hzh' _ ((List.mem_insertionSort _).mp (List.get?_mem (get?_eq_some_getD hlth)))
  have hv : ((q.pushWindows 0 0).vertical_measurements.insertionSort (· ≤ ·)).getD
      (3 * (q.pushWindows 0 0).horizontal_measurements.length / 4) 0 = 0 :=
    hzv' _ ((List.mem_insertionSort _).mp (List.get?_mem (get?_eq_some_getD hltv)))
  refine ⟨?_, hzh', hzv', hlen'⟩
  simp only [QuantileDenoiser.add_measurement]
  rw [compute_quantile_eq hne hlen', hh, hv]
  rfl

/-- Below-threshold inputs always classify as no-movement, and the new
state only records the cleared label. -/
lemma classifier_zero (md : MovementDetection)
    (ht : 0 < md.acceleration_threshold) (atan2 : ℚ → ℚ → ℚ) :
    md.next_direction atan2 0 0 = (none, { md with prev_direction := none }) := by
  have hb : md.below_acceleration_threshold 0 0 = true := by
    simp [MovementDetection.below_acceleration_threshold, ht]
  simp [MovementDetection.next_direction, hb]

/-- One zero-vector tick of the whole pipeline from an all-zero state: the
smoothing output is the zero vector, the denoiser returns `(0, 0)`, the
emitted label is `none`, and the all-zero state is preserved (with the same
threshold). -/
lemma analysis_zero_step (atan2 : ℚ → ℚ → ℚ) {a : Analysis} (hz : allZeroState a)
    (ht : 0 < a.movement_detection.acceleration_threshold) :
    (a.smoothing.add_measurement zeroVec).1 = zeroVec ∧
    a.movement_detection.movement_computation.add_measurement 0 0 =
      some ((0, 0), a.movement_detection.movement_computation.pushWindows 0 0) ∧
    ∃ a', a.add_measurement atan2 zeroVec = some (none, a') ∧ allZeroState a' ∧
      a'.movement_detection.acceleration_threshold =
        a.movement_detection.acceleration_threshold := by
  obtain ⟨hzs, hzh, hzv, hlen⟩ := hz
  obtain ⟨hsm1, hsm2⟩ := smoothing_zero_step hzs
  obtain ⟨hq1, hq2, hq3, hq4⟩ := quantile_zero_step hzh hzv hlen
  have hhor : (a.smoothing.add_measurement zeroVec).1.x ^ 2 +
      (a.smoothing.add_measurement zeroVec).1.y ^ 2 = 0 := by
    rw [hsm1]
    norm_num [zeroVec]
  have hver : (a.smoothing.add_measurement zeroVec).1.z ^ 2 = 0 := by
    rw [hsm1]
    norm_num [zeroVec]
  have hcl := classifier_zero
    { a.movement_detection with
      movement_computation := a.movement_detection.movement_computation.pushWindows 0 0 }
    (by simpa using ht) atan2
  refine ⟨hsm1, hq1,
    ⟨(a.smoothing.add_measurement zeroVec).2,
      { a.movement_detection with
        movement_computation := a.movement_detection.movement_computation.pushWindows 0 0,
        prev_direction := none }⟩, ?_, ⟨hsm2, hq2, hq3, hq4⟩, rfl⟩
  simp only [Analysis.add_measurement, hhor, hver, MovementDetection.add_measurement, hq1]
  rw [hcl]

/-- Any number of zero-vector ticks from an all-zero pipeline state emits
`none` on every tick and stays in an all-zero state. -/
lemma zero_run (atan2 : ℚ → ℚ → ℚ) : ∀ (n : ℕ) (a : Analysis), allZeroState a →
    0 < a.movement_detection.acceleration_threshold →
    ∃ a', a.run atan2 (List.replicate n zeroVec) = some (List.replicate n none, a') ∧
      allZeroState a' ∧
      a'.movement_detection.acceleration_threshold =
        a.movement_detection.acceleration_threshold
  | 0, a, hz, ht => ⟨a, rfl, hz, rfl⟩
  | n + 1, a, hz, ht => by
    obtain ⟨-, -, a1, hadd, hz1, hth⟩ := analysis_zero_step atan2 hz ht
    obtain ⟨af, hrun, hzf, hthf⟩ := zero_run atan2 n a1 hz1 (by rw [hth]; exact ht)
    refine ⟨af, ?_, hzf, by rw [hthf, hth]⟩
    simp only [List.replicate_succ, Analysis.run, hadd, hrun]

/-- C6: for a pipeline constructed with a positive acceleration threshold
and fed only zero vectors for `n ≥ max(smoothing, detection)` ticks, every
tick's output is no-movement (`none`); moreover after any prefix of `i ≤ n`
such ticks the next smoothing output is the zero vector, the denoised
energies are `(0, 0)`, and the next emitted label is `none`. -/
theorem C6_zero_input_no_movement (atan2 : ℚ → ℚ → ℚ) (s d : ℕ) (t lo hi : ℚ)
    (a : Analysis) (hc : Analysis.new s d t lo hi = some a) (ht : 0 < t)
    (n i : ℕ) (hn : max s d ≤ n) (hin : i ≤ n) :
    (∃ af, a.run atan2 (List.replicate n zeroVec) =
        some (List.replicate n none, af)) ∧
    (∃ ai, a.run atan2 (List.replicate i zeroVec) =
        some (List.replicate i none, ai) ∧
      (ai.smoothing.add_measurement zeroVec).1 = zeroVec ∧
      ai.movement_detection.movement_computation.add_measurement 0 0 =
        some ((0, 0), ai.movement_detection.movement_computation.pushWindows 0 0) ∧
      (ai.add_measurement atan2 zeroVec).map Prod.fst = some none) := by
  have hz : allZeroState a ∧ a.movement_detection.acceleration_threshold = t := by
    unfold Analysis.new at hc
    split_ifs at hc
    cases hc.symm
    exact ⟨⟨by simp, by simp [QuantileDenoiser.new], by simp [QuantileDenoiser.new],
      by simp [QuantileDenoiser.new]⟩, rfl⟩
  have ht' : 0 < a.movement_detection.acceleration_threshold := by
    rw [hz.2]
    exact ht
  constructor
  · obtain ⟨af, hrun, -, -⟩ := zero_run atan2 n a hz.1 ht'
    exact ⟨af, hrun⟩
  · obtain ⟨ai, hrun, hzi, hthi⟩ := zero_run atan2 i a hz.1 ht'
    have hti : 0 < ai.movement_detection.acceleration_threshold := by
      rw [hthi]
      exact ht'
    obtain ⟨h1, h2, a', hadd, -, -⟩ := analysis_zero_step atan2 hzi hti
    exact ⟨ai, hrun, h1, h2, by rw [hadd]; rfl⟩

/-- Witness for C6: configuration `(smoothing = 2, detection = 1,
threshold = 1)`, two zero-vector ticks, prefix length 1. -/
theorem C6_zero_input_no_movement_witness :
    (∃ af, (⟨⟨[], 2⟩, ⟨⟨[], [], 1⟩, 1, 0, 1, none⟩⟩ : Analysis).run (fun _ _ => 0)
        (List.replicate 2 zeroVec) = some (List.replicate 2 none, af)) ∧
    (∃ ai, (⟨⟨[], 2⟩, ⟨⟨[], [], 1⟩, 1, 0, 1, none⟩⟩ : Analysis).run (fun _ _ => 0)
        (List.replicate 1 zeroVec) = some (List.replicate 1 none, ai) ∧
      (ai.smoothing.add_measurement zeroVec).1 = zeroVec ∧
      ai.movement_detection.movement_computation.add_measurement 0 0 =
        some ((0, 0), ai.movement_detection.movement_computation.pushWindows 0 0) ∧
      (ai.add_measurement (fun _ _ => 0) zeroVec).map Prod.fst = some none) :=
  C6_zero_input_no_movement (fun _ _ => 0) 2 1 1 0 1
    ⟨⟨[], 2⟩, ⟨⟨[], [], 1⟩, 1, 0, 1, none⟩⟩ (by decide) (by decide) 2 1 (by decide)
    (by decide)

end ImuAnalysis
